import Mathlib

/-!
Verification of the Mehrotra predictor-corrector LP solver and the
regularized-LDL solve layer of the Elemental library, against its
natural-language specification.

The embedding models exact arithmetic with `ℚ`, vectors as `List ℚ`
(column vectors), and dense matrices as row-major `List (List ℚ)`.
External collaborators (KKT builders, dense LDL factorization,
solution expansion, vector 2-norm, the `Initialize` routine) are
consumed through a record of abstract operations, mirroring the
narrow interfaces of the spec; the driver logic itself is translated
from `lp::primal::Mehrotra` (dense sequential and dense distributed
variants, and the sparse-sequential stub), and the regularized solve
layer from `reg_ldl::RegularizedSolveAfter*`.
-/

namespace Elem

/-- Column vectors over exact rationals. -/
abbrev Vec := List ℚ

/-- Row-major dense matrices. -/
abbrev Mat := List (List ℚ)

/-- `Dot(u, v)`: inner product of two vectors. -/
def dot (u v : Vec) : ℚ := (List.zipWith (fun a b => a * b) u v).sum

/-- `DiagonalScale(LEFT, NORMAL, u, v)`: Hadamard (componentwise) product. -/
def hadamard (u v : Vec) : Vec := List.zipWith (fun a b => a * b) u v

/-- `Axpy(a, u, v)`: `v := v + a * u`, componentwise. -/
def axpy (a : ℚ) (u v : Vec) : Vec := List.zipWith (fun ui vi => vi + a * ui) u v

/-- `Scale(a, v)`: componentwise scaling. -/
def scale (a : ℚ) (v : Vec) : Vec := v.map (fun e => a * e)

/-- `Shift(v, s)`: add a scalar to every component. -/
def vshift (v : Vec) (s : ℚ) : Vec := v.map (fun e => e + s)

/-- Componentwise vector sum. -/
def vadd (u v : Vec) : Vec := List.zipWith (fun a b => a + b) u v

/-- Componentwise vector difference. -/
def vsub (u v : Vec) : Vec := List.zipWith (fun a b => a - b) u v

/-- Matrix-vector product `A * x` for a row-major matrix. -/
def matVec (A : Mat) (x : Vec) : Vec := A.map (fun row => dot row x)

/-- `Gemv(NORMAL, 1, A, x, 1, y)`: `y := y + A * x`. -/
def gemvN (A : Mat) (x y : Vec) : Vec := List.zipWith (fun yi row => yi + dot row x) y A

/-- `Gemv(TRANSPOSE, 1, A, y, 1, c)`: `c := c + Aᵀ * y`, accumulating rows. -/
def gemvT (A : Mat) (ys c : Vec) : Vec :=
  (A.zip ys).foldl (fun acc rz => List.zipWith (fun a r => a + rz.2 * r) acc rz.1) c

/-- `NumNonPositive(v)`: number of components that are `≤ 0`. -/
def numNonPositive (v : Vec) : ℕ := (v.filter (fun e => decide (e ≤ 0))).length

/-- Squared Euclidean norm `‖v‖₂²` (used so all comparisons stay in `ℚ`). -/
def nrmSq (v : Vec) : ℚ := dot v v

/-- Strict componentwise positivity (membership of the interior of the cone). -/
def allPos (v : Vec) : Prop := ∀ e ∈ v, 0 < e

instance (v : Vec) : Decidable (allPos v) := List.decidableBAll _ v

/-- `A.Width()`: length of the first row (0 for an empty matrix). -/
def matWidth (A : Mat) : ℕ := (A.headD []).length

/-- The three KKT formulations selectable through `ctrl.system`. -/
inductive KKTSystem
  | full
  | augmented
  | normal
deriving DecidableEq

/-- `MehrotraCtrl`: the immutable control configuration of a solve. -/
structure MehrotraCtrl where
  isInit : Bool
  tol : ℚ
  maxIts : ℕ
  maxStepRatio : ℚ
  system : KKTSystem
  useDiag : Bool
deriving DecidableEq

/-- Modelled from the spec: the external collaborators consumed by the
Mehrotra driver through narrow interfaces — the KKT system builders and
right-hand-side builders for the three formulations, the solution
expansions, the dense LDL factorization (`LDL(J, dSub, p, false)`,
abstracted into a factorization value of type `F`) together with its
`ldl::SolveAfter`, the vector 2-norm `Nrm2`, and the `Initialize`
routine, which per the spec produces a starting iterate from `(A, b, c)`
alone.  The driver's claims are settled for arbitrary values of these
operations. -/
structure MehrotraOps (F : Type) where
  nrm2 : Vec → ℚ
  initIterate : Mat → Vec → Vec → Vec × Vec × Vec
  kkt : Mat → Vec → Vec → Mat
  kktRHS : Vec → Vec → Vec → Vec → Vec
  expandSolution : ℕ → ℕ → Vec → Vec × Vec × Vec
  augmentedKKT : Mat → Vec → Vec → Mat
  augmentedKKTRHS : Vec → Vec → Vec → Vec → Vec
  expandAugmentedSolution : Vec → Vec → Vec → Vec → Vec × Vec × Vec
  normalKKT : Mat → Vec → Vec → Mat
  normalKKTRHS : Mat → Vec → Vec → Vec → Vec → Vec → Vec
  expandNormalSolution : Mat → Vec → Vec → Vec → Vec → Vec → Vec → Vec × Vec
  ldl : Mat → F
  ldlSolveAfter : F → Vec → Vec

/-- One pass of the step-length minimization loop: starting from `a`,
take the minimum with `-xᵢ/dᵢ` over every pair with `dᵢ < 0`. -/
def foldPairs (l : List (ℚ × ℚ)) (a : ℚ) : ℚ :=
  l.foldl (fun a p => if p.2 < 0 then min a (-p.1 / p.2) else a) a

/-- The step-length loop of the source, over aligned vectors `v`, `d`:
`a := init; for i: if dᵢ < 0 then a := min a (-vᵢ/dᵢ)`. -/
def stepMax (v d : Vec) (init : ℚ) : ℚ := foldPairs (v.zip d) init

/-- The final (ratio-scaled) step length of step 8:
`alpha := 1/maxStepRatio; loop; alpha := min (maxStepRatio * alpha) 1`. -/
def finalStepLength (msr : ℚ) (v d : Vec) : ℚ :=
  min (msr * stepMax v d (1 / msr)) 1

/-- The corrector right-hand-side perturbation
`r_mu := dxAff ∘ dzAff - sigma * mu` (dense sequential operand order). -/
def correctorRmu (dxAff dzAff : Vec) (sigma mu : ℚ) : Vec :=
  vshift (hadamard dxAff dzAff) (-(sigma * mu))

/-- Primal residual `r_b = A x - b` (`rb = b; Scale(-1, rb); Gemv(NORMAL, 1, A, x, 1, rb)`). -/
def rbRes (A : Mat) (b x : Vec) : Vec := gemvN A x (scale (-1) b)

/-- Dual residual `r_c = Aᵀ y - z + c` (`rc = c; Gemv(TRANSPOSE, 1, A, y, 1, rc); Axpy(-1, z, rc)`). -/
def rcRes (A : Mat) (c y z : Vec) : Vec := axpy (-1) z (gemvT A y c)

/-- Relative duality-gap criterion `|cᵀx - (-bᵀy)| / (1 + |cᵀx|)`. -/
def objConv (b c x y : Vec) : ℚ :=
  |dot c x - (-(dot b y))| / (1 + |dot c x|)

/-- The convergence test: all three relative criteria against `ctrl.tol`. -/
def convTest (nrm2 : Vec → ℚ) (tol : ℚ) (A : Mat) (b c : Vec) (bN cN : ℚ)
    (x y z : Vec) : Prop :=
  objConv b c x y ≤ tol ∧
  nrm2 (rbRes A b x) / (1 + bN) ≤ tol ∧
  nrm2 (rcRes A c y z) / (1 + cN) ≤ tol

instance (nrm2 : Vec → ℚ) (tol : ℚ) (A : Mat) (b c : Vec) (bN cN : ℚ)
    (x y z : Vec) : Decidable (convTest nrm2 tol A b c bN cN x y z) :=
  instDecidableAnd

/-- The primal-dual iterate `(x, y, z)`. -/
abbrev St := Vec × Vec × Vec

/-- Affine (predictor) solve: builds the chosen KKT formulation, factors
it, solves, and expands; returns the factorization value together with
`(dxAff, dyAff, dzAff)`. -/
def affineSolve {F : Type} (ops : MehrotraOps F) (sys : KKTSystem) (A : Mat)
    (c : Vec) (m n : ℕ) (x z rc rb rmu : Vec) : F × Vec × Vec × Vec :=
  match sys with
  | .full =>
      let J := ops.kkt A x z
      let d := ops.kktRHS rc rb rmu z
      let fact := ops.ldl J
      let d2 := ops.ldlSolveAfter fact d
      let s := ops.expandSolution m n d2
      (fact, s.1, s.2.1, s.2.2)
  | .augmented =>
      let J := ops.augmentedKKT A x z
      let d := ops.augmentedKKTRHS x rc rb rmu
      let fact := ops.ldl J
      let d2 := ops.ldlSolveAfter fact d
      let s := ops.expandAugmentedSolution x z rmu d2
      (fact, s.1, s.2.1, s.2.2)
  | .normal =>
      let J := ops.normalKKT A x z
      let dy := ops.normalKKTRHS A x z rc rb rmu
      let fact := ops.ldl J
      let dy2 := ops.ldlSolveAfter fact dy
      let s := ops.expandNormalSolution A c x z rc rmu dy2
      (fact, s.1, dy2, s.2)

/-- Corrector solve: zeroes `rc` and `rb`, rebuilds only the right-hand
side, and re-solves against an already-computed factorization `fact`. -/
def correctorSolve {F : Type} (ops : MehrotraOps F) (sys : KKTSystem) (A : Mat)
    (c : Vec) (m n : ℕ) (x z : Vec) (fact : F) (rmu2 : Vec) : Vec × Vec × Vec :=
  let rc0 : Vec := List.replicate n 0
  let rb0 : Vec := List.replicate m 0
  match sys with
  | .full =>
      let d := ops.kktRHS rc0 rb0 rmu2 z
      let d2 := ops.ldlSolveAfter fact d
      ops.expandSolution m n d2
  | .augmented =>
      let d := ops.augmentedKKTRHS x rc0 rb0 rmu2
      let d2 := ops.ldlSolveAfter fact d
      ops.expandAugmentedSolution x z rmu2 d2
  | .normal =>
      let dy := ops.normalKKTRHS A x z rc0 rb0 rmu2
      let dy2 := ops.ldlSolveAfter fact dy
      let s := ops.expandNormalSolution A c x z rc0 rmu2 dy2
      (s.1, dy2, s.2)

/-- Steps 4-9 of a dense sequential Mehrotra iteration, after the cone,
convergence and iteration-cap checks have all passed: affine prediction,
affine step lengths, centering parameter, corrector solve against the
affine factorization, final step lengths, and iterate update. -/
def mehrotraUpdate {F : Type} (ops : MehrotraOps F) (ctrl : MehrotraCtrl)
    (A : Mat) (b c : Vec) (st : St) : St :=
  let x := st.1
  let y := st.2.1
  let z := st.2.2
  let m := A.length
  let n := matWidth A
  let rb := rbRes A b x
  let rc := rcRes A c y z
  let rmu := hadamard x z
  let r := affineSolve ops ctrl.system A c m n x z rc rb rmu
  let fact := r.1
  let dxAff := r.2.1
  let dyAff := r.2.2.1
  let dzAff := r.2.2.2
  let alphaAffPri := stepMax x dxAff 1
  let alphaAffDual := stepMax z dzAff 1
  let mu := dot x z / (n : ℚ)
  let muAff := dot (axpy alphaAffPri dxAff x) (axpy alphaAffDual dzAff z) / (n : ℚ)
  let sigma := (muAff / mu) ^ 3
  let s := correctorSolve ops ctrl.system A c m n x z fact
    (correctorRmu dxAff dzAff sigma mu)
  let dx := axpy 1 dxAff s.1
  let dy := axpy 1 dyAff s.2.1
  let dz := axpy 1 dzAff s.2.2
  let alphaPri := finalStepLength ctrl.maxStepRatio x dx
  let alphaDual := finalStepLength ctrl.maxStepRatio z dz
  (axpy alphaPri dx x, axpy alphaDual dy y, axpy alphaDual dz z)

/-- Outcome of one pass through the body of the outer `for` loop. -/
inductive IterResult
  | converged (st : St)
  | coneError (xNumNonPos zNumNonPos : ℕ)
  | maxItsError
  | next (st : St)
deriving DecidableEq

/-- One pass through the loop body of the dense sequential `Mehrotra`:
cone check, convergence test, iteration cap, then the update. -/
def mehrotraIter {F : Type} (ops : MehrotraOps F) (ctrl : MehrotraCtrl)
    (A : Mat) (b c : Vec) (bN cN : ℚ) (numIts : ℕ) (st : St) : IterResult :=
  if 0 < numNonPositive st.1 ∨ 0 < numNonPositive st.2.2 then
    .coneError (numNonPositive st.1) (numNonPositive st.2.2)
  else if convTest ops.nrm2 ctrl.tol A b c bN cN st.1 st.2.1 st.2.2 then
    .converged st
  else if numIts = ctrl.maxIts then
    .maxItsError
  else
    .next (mehrotraUpdate ops ctrl A b c st)

/-- Final outcome of a `Mehrotra` call: normal return, `LogicError`
(cone violation), or `RuntimeError` (iteration cap).  `outOfFuel` is an
artifact of the fuelled loop and is proved unreachable. -/
inductive MehrotraResult
  | ok (st : St)
  | logicError (xNumNonPos zNumNonPos : ℕ)
  | runtimeError
  | outOfFuel
deriving DecidableEq

/-- The fuelled outer loop `for (Int numIts=0; ; ++numIts)`. -/
def mehrotraLoop {F : Type} (ops : MehrotraOps F) (ctrl : MehrotraCtrl)
    (A : Mat) (b c : Vec) (bN cN : ℚ) : ℕ → ℕ → St → MehrotraResult
  | 0, _, _ => .outOfFuel
  | fuel + 1, numIts, st =>
      match mehrotraIter ops ctrl A b c bN cN numIts st with
      | .converged st2 => .ok st2
      | .coneError nx nz => .logicError nx nz
      | .maxItsError => .runtimeError
      | .next st2 => mehrotraLoop ops ctrl A b c bN cN fuel (numIts + 1) st2

/-- The starting iterate: the caller's values when `ctrl.isInit`, else
the output of the external `Initialize(A, b, c, x, y, z)`. -/
def startState {F : Type} (ops : MehrotraOps F) (ctrl : MehrotraCtrl)
    (A : Mat) (b c x y z : Vec) : St :=
  if ctrl.isInit then (x, y, z) else ops.initIterate A b c

/-- Dense sequential `lp::primal::Mehrotra(A, b, c, x, y, z, ctrl)`. -/
def Mehrotra {F : Type} (ops : MehrotraOps F) (ctrl : MehrotraCtrl)
    (A : Mat) (b c x y z : Vec) : MehrotraResult :=
  mehrotraLoop ops ctrl A b c (ops.nrm2 b) (ops.nrm2 c) (ctrl.maxIts + 1) 0
    (startState ops ctrl A b c x y z)

/-- The partial trajectory of the outer loop: `some st'` when iterations
`j, j+1, …, j+k-1` all take the `.next` branch, landing on `st'`. -/
def mehrotraRunFrom {F : Type} (ops : MehrotraOps F) (ctrl : MehrotraCtrl)
    (A : Mat) (b c : Vec) (bN cN : ℚ) (j : ℕ) (st : St) : ℕ → Option St
  | 0 => some st
  | k + 1 =>
      match mehrotraRunFrom ops ctrl A b c bN cN j st k with
      | some st2 =>
          match mehrotraIter ops ctrl A b c bN cN (j + k) st2 with
          | .next st3 => some st3
          | _ => none
      | none => none

/-! ### Dense distributed variant

The `AbstractDistMatrix` overload of `Mehrotra` is modelled over the
same global vectors; its collective reductions (`mpi::AllReduce` with
`MIN`) are modelled as the minimum over all ranks' local results, and
the per-rank local loops are modelled through `chunkify`, which maps a
pair of aligned global vectors to the per-process lists of local
`(vᵢ, dᵢ)` pairs (the element distribution; `dx.AlignWith(x)` etc.
guarantees the pairs travel together). -/

/-- `mpi::AllReduce(·, mpi::MIN, comm)` over the ranks' local values. -/
def allReduceMin (ms : List ℚ) (dflt : ℚ) : ℚ :=
  match ms with
  | [] => dflt
  | m :: rest => rest.foldl min m

/-- The distributed step-length loop: every rank folds over its local
entries starting from `init`, then the results are `MIN`-all-reduced. -/
def stepMaxDist (chunkify : Vec → Vec → List (List (ℚ × ℚ))) (v d : Vec)
    (init : ℚ) : ℚ :=
  allReduceMin ((chunkify v d).map (fun cchunk => foldPairs cchunk init)) init

/-- The corrector perturbation in the distributed body
(`rmu = dxAff; DiagonalScale(LEFT, NORMAL, dzAff, rmu); Shift(rmu, -sigma*mu)`):
the Hadamard factors appear in the opposite order to the sequential body. -/
def correctorRmuDist (dxAff dzAff : Vec) (sigma mu : ℚ) : Vec :=
  vshift (hadamard dzAff dxAff) (-(sigma * mu))

/-- Steps 4-9 of a dense distributed Mehrotra iteration. -/
def mehrotraUpdateDist {F : Type} (ops : MehrotraOps F)
    (chunkify : Vec → Vec → List (List (ℚ × ℚ))) (ctrl : MehrotraCtrl)
    (A : Mat) (b c : Vec) (st : St) : St :=
  let x := st.1
  let y := st.2.1
  let z := st.2.2
  let m := A.length
  let n := matWidth A
  let rb := rbRes A b x
  let rc := rcRes A c y z
  let rmu := hadamard x z
  let r := affineSolve ops ctrl.system A c m n x z rc rb rmu
  let fact := r.1
  let dxAff := r.2.1
  let dyAff := r.2.2.1
  let dzAff := r.2.2.2
  let alphaAffPri := stepMaxDist chunkify x dxAff 1
  let alphaAffDual := stepMaxDist chunkify z dzAff 1
  let mu := dot x z / (n : ℚ)
  let muAff := dot (axpy alphaAffPri dxAff x) (axpy alphaAffDual dzAff z) / (n : ℚ)
  let sigma := (muAff / mu) ^ 3
  let s := correctorSolve ops ctrl.system A c m n x z fact
    (correctorRmuDist dxAff dzAff sigma mu)
  let dx := axpy 1 dxAff s.1
  let dy := axpy 1 dyAff s.2.1
  let dz := axpy 1 dzAff s.2.2
  let alphaPri := min (ctrl.maxStepRatio * stepMaxDist chunkify x dx (1 / ctrl.maxStepRatio)) 1
  let alphaDual := min (ctrl.maxStepRatio * stepMaxDist chunkify z dz (1 / ctrl.maxStepRatio)) 1
  (axpy alphaPri dx x, axpy alphaDual dy y, axpy alphaDual dz z)

/-- One pass through the loop body of the dense distributed `Mehrotra`. -/
def mehrotraIterDist {F : Type} (ops : MehrotraOps F)
    (chunkify : Vec → Vec → List (List (ℚ × ℚ))) (ctrl : MehrotraCtrl)
    (A : Mat) (b c : Vec) (bN cN : ℚ) (numIts : ℕ) (st : St) : IterResult :=
  if 0 < numNonPositive st.1 ∨ 0 < numNonPositive st.2.2 then
    .coneError (numNonPositive st.1) (numNonPositive st.2.2)
  else if convTest ops.nrm2 ctrl.tol A b c bN cN st.1 st.2.1 st.2.2 then
    .converged st
  else if numIts = ctrl.maxIts then
    .maxItsError
  else
    .next (mehrotraUpdateDist ops chunkify ctrl A b c st)

/-- The fuelled outer loop of the dense distributed variant. -/
def mehrotraLoopDist {F : Type} (ops : MehrotraOps F)
    (chunkify : Vec → Vec → List (List (ℚ × ℚ))) (ctrl : MehrotraCtrl)
    (A : Mat) (b c : Vec) (bN cN : ℚ) : ℕ → ℕ → St → MehrotraResult
  | 0, _, _ => .outOfFuel
  | fuel + 1, numIts, st =>
      match mehrotraIterDist ops chunkify ctrl A b c bN cN numIts st with
      | .converged st2 => .ok st2
      | .coneError nx nz => .logicError nx nz
      | .maxItsError => .runtimeError
      | .next st2 => mehrotraLoopDist ops chunkify ctrl A b c bN cN fuel (numIts + 1) st2

/-- Dense distributed `lp::primal::Mehrotra` (the `AbstractDistMatrix`
overload), over the logical global vectors. -/
def MehrotraDist {F : Type} (ops : MehrotraOps F)
    (chunkify : Vec → Vec → List (List (ℚ × ℚ))) (ctrl : MehrotraCtrl)
    (A : Mat) (b c x y z : Vec) : MehrotraResult :=
  mehrotraLoopDist ops chunkify ctrl A b c (ops.nrm2 b) (ops.nrm2 c)
    (ctrl.maxIts + 1) 0 (startState ops ctrl A b c x y z)

/-! ### Sparse sequential stub -/

/-- A sequential sparse matrix (triplet form); only its type matters to
the sparse-sequential specialization, which rejects every input. -/
structure SparseMat where
  height : ℕ
  width : ℕ
  entries : List (ℕ × ℕ × ℚ)

/-- Result of the sparse-sequential `Mehrotra` specialization. -/
inductive SparseSeqResult
  | notSupported
deriving DecidableEq

/-- The sparse-sequential `Mehrotra(SparseMatrix, Matrix, …)` overload:
its entire body is `LogicError("Sequential sparse-direct solvers not yet
supported")`, raised before any computation touches `x`, `y` or `z`. -/
def MehrotraSparseSeq (_A : SparseMat) (_b _c _x _y _z : Vec)
    (_ctrl : MehrotraCtrl) : SparseSeqResult :=
  .notSupported

/-! ### Regularized solve layer (`reg_ldl`) -/

/-- The status record distilled from `RegSolveInfo`. -/
structure RefInfo where
  numIts : ℕ
  metRequestedTol : Bool
deriving DecidableEq

/-- The operator applied by `RegularizedSolveAfterNoPromote`'s `applyA`
lambda: `Y = X; DiagonalScale(LEFT, NORMAL, reg, Y);
Multiply(NORMAL, 1, A, X, 1, Y)`, i.e. `Y = diag(reg)·X + A·X` — the
*regularized* matrix applied to `X`. -/
def regularizedApply (A : Mat) (reg X : Vec) : Vec :=
  vadd (hadamard reg X) (matVec A X)

/-- Squared-norm form of the relative-residual test
`‖r‖₂ / ‖b‖₂ ≤ tol` (equivalent for `tol ≥ 0` since both norms are
nonnegative). -/
def relResWithin (r b : Vec) (tol : ℚ) : Prop :=
  nrmSq r ≤ tol ^ 2 * nrmSq b

instance (r b : Vec) (tol : ℚ) : Decidable (relResWithin r b tol) :=
  inferInstanceAs (Decidable (_ ≤ _))

/-- Modelled from the spec: the external `RefinedSolve` iterative
refinement loop (not under `src/`): repeatedly apply the
factored-surrogate inverse as a correction to the current residual;
terminate with `metRequestedTol = true` when the relative residual (with
respect to `applyA`) drops below `relTol`, and with
`metRequestedTol = false` after `maxRefineIts` steps or when the
residual stops decreasing (stagnation, with the minimum reduction
factor taken as 1). -/
def refinedSolveLoop (applyA applyAInv : Vec → Vec) (b : Vec) (relTol : ℚ) :
    ℕ → ℕ → Vec → Vec × RefInfo
  | 0, its, x =>
      (x, ⟨its, decide (relResWithin (vsub b (applyA x)) b relTol)⟩)
  | fuel + 1, its, x =>
      let r := vsub b (applyA x)
      if relResWithin r b relTol then (x, ⟨its, true⟩)
      else
        let x2 := vadd x (applyAInv r)
        if nrmSq (vsub b (applyA x2)) < nrmSq r then
          refinedSolveLoop applyA applyAInv b relTol fuel (its + 1) x2
        else (x, ⟨its, false⟩)

/-- Modelled from the spec: `RefinedSolve(applyA, applyAInv, B, relTol,
maxRefineIts, progress)`, starting from the preconditioned right-hand
side. -/
def refinedSolve (applyA applyAInv : Vec → Vec) (b : Vec) (relTol : ℚ)
    (maxRefineIts : ℕ) : Vec × RefInfo :=
  refinedSolveLoop applyA applyAInv b relTol maxRefineIts 0 (applyAInv b)

/-- `reg_ldl::RegularizedSolveAfterNoPromote(A, reg, sparseLDLFact, B,
relTol, maxRefineIts, …)`: iterative refinement where `applyA` applies
`diag(reg)·X + A·X` and `applyAInv` is the factored-surrogate solve. -/
def regularizedSolveAfterNoPromote (A : Mat) (reg : Vec) (solve : Vec → Vec)
    (B : Vec) (relTol : ℚ) (maxRefineIts : ℕ) : Vec × RefInfo :=
  refinedSolve (fun X => regularizedApply A reg X) solve B relTol maxRefineIts

/-- `reg_ldl::RegularizedSolveAfterPromote`: dispatches on whether the
working type has an extended-precision promotion
(`IsSame<Field, Promote<Field>>`); the promoted path runs the external
`PromotedRefinedSolve` (an abstract argument here), the non-promoted
path is exactly `RegularizedSolveAfterNoPromote`. -/
def regularizedSolveAfterPromote (hasPromote : Bool)
    (promotedRefinedSolve : (Vec → Vec) → (Vec → Vec) → Vec → ℚ → ℕ → Vec × RefInfo)
    (A : Mat) (reg : Vec) (solve : Vec → Vec) (B : Vec) (relTol : ℚ)
    (maxRefineIts : ℕ) : Vec × RefInfo :=
  if hasPromote then
    promotedRefinedSolve (fun X => regularizedApply A reg X) solve B relTol maxRefineIts
  else
    regularizedSolveAfterNoPromote A reg solve B relTol maxRefineIts

/-- `reg_ldl::RegularizedSolveAfter`: forwards to
`RegularizedSolveAfterPromote`. -/
def regularizedSolveAfter (hasPromote : Bool)
    (promotedRefinedSolve : (Vec → Vec) → (Vec → Vec) → Vec → ℚ → ℕ → Vec × RefInfo)
    (A : Mat) (reg : Vec) (solve : Vec → Vec) (B : Vec) (relTol : ℚ)
    (maxRefineIts : ℕ) : Vec × RefInfo :=
  regularizedSolveAfterPromote hasPromote promotedRefinedSolve A reg solve B
    relTol maxRefineIts

/-- Translation of a stopping loop-body outcome into the loop result. -/
def stopResult : IterResult → Option MehrotraResult
  | .converged st => some (.ok st)
  | .coneError nx nz => some (.logicError nx nz)
  | .maxItsError => some .runtimeError
  | .next _ => none

/-- A trivial instantiation of the external collaborators (used to
exercise the driver theorems on concrete inputs). -/
def trivOps : MehrotraOps Unit :=
  ⟨fun _ => 0, fun _ _ _ => ([1], [0], [1]), fun _ _ _ => [], fun _ _ _ _ => [],
   fun _ _ _ => ([], [], []), fun _ _ _ => [], fun _ _ _ _ => [],
   fun _ _ _ _ => ([], [], []), fun _ _ _ => [], fun _ _ _ _ _ _ => [],
   fun _ _ _ _ _ _ _ => ([], []), fun _ => (), fun _ v => v⟩

/-- A concrete control configuration (already-initialized, tolerance 0,
5 iterations, step ratio 1/2, full KKT formulation). -/
def trivCtrl : MehrotraCtrl := ⟨true, 0, 5, 1/2, .full, false⟩

/-- The same control configuration with `initialized = false`. -/
def trivCtrlUninit : MehrotraCtrl := ⟨false, 0, 5, 1/2, .full, false⟩

/-- The one-chunk (single-process) distribution of a pair of aligned
vectors. -/
def singleChunk (v d : Vec) : List (List (ℚ × ℚ)) := [v.zip d]

/-- The infimum (in `WithTop ℚ`) of the boundary ratios `-vᵢ/dᵢ` over
the pairs of `l` with `dᵢ < 0`; `⊤` when no component of `d` is
negative.  Representation used to reason about the step-length folds. -/
def gmin (l : List (ℚ × ℚ)) : WithTop ℚ :=
  (((l.filter (fun p => decide (p.2 < 0))).map
      (fun p => ((-p.1 / p.2 : ℚ) : WithTop ℚ))) : Multiset (WithTop ℚ)).inf

/-! ### Lemmas about the step-length folds -/

theorem foldPairs_cons (p : ℚ × ℚ) (l : List (ℚ × ℚ)) (a : ℚ) :
    foldPairs (p :: l) a = foldPairs l (if p.2 < 0 then min a (-p.1 / p.2) else a) := by
  simp only [foldPairs, List.foldl_cons]

theorem foldPairs_le (l : List (ℚ × ℚ)) (a : ℚ) : foldPairs l a ≤ a := by
  induction l generalizing a with
  | nil => exact le_refl a
  | cons p l ih =>
      rw [foldPairs_cons]
      refine le_trans (ih _) ?_
      split
      · exact min_le_left _ _
      · exact le_refl a

theorem foldPairs_le_ratio :
    ∀ (l : List (ℚ × ℚ)) (a : ℚ) (p : ℚ × ℚ), p ∈ l → p.2 < 0 →
      foldPairs l a ≤ -p.1 / p.2 := by
  intro l
  induction l with
  | nil => intro a p hp _; cases hp
  | cons q l ih =>
      intro a p hp hneg
      rw [foldPairs_cons]
      rcases List.mem_cons.mp hp with h | h
      · subst h
        rw [if_pos hneg]
        exact le_trans (foldPairs_le _ _) (min_le_right _ _)
      · exact ih _ p h hneg

theorem foldPairs_pos (l : List (ℚ × ℚ)) (a : ℚ) (ha : 0 < a)
    (hl : ∀ p ∈ l, 0 < p.1) : 0 < foldPairs l a := by
  induction l generalizing a with
  | nil => exact ha
  | cons p l ih =>
      rw [foldPairs_cons]
      refine ih _ ?_ (fun q hq => hl q (List.mem_cons_of_mem _ hq))
      split
      · rename_i hneg
        have h1 : 0 < p.1 := hl p (List.mem_cons_self _ _)
        have : 0 < -p.1 / p.2 := div_pos_of_neg_of_neg (by linarith) hneg
        exact lt_min ha this
      · exact ha

theorem gmin_nil : gmin [] = ⊤ := rfl

theorem gmin_cons (p : ℚ × ℚ) (l : List (ℚ × ℚ)) :
    gmin (p :: l) =
      if p.2 < 0 then min ((-p.1 / p.2 : ℚ) : WithTop ℚ) (gmin l) else gmin l := by
  by_cases h : p.2 < 0
  · simp [gmin, List.filter_cons, h, Multiset.inf_cons, min_def, inf_eq_min]
  · simp [gmin, List.filter_cons, h]

theorem foldPairs_eq_gmin (l : List (ℚ × ℚ)) (a : ℚ) :
    ((foldPairs l a : ℚ) : WithTop ℚ) = min (a : WithTop ℚ) (gmin l) := by
  induction l generalizing a with
  | nil =>
      rw [gmin_nil, foldPairs]
      simp
  | cons p l ih =>
      rw [foldPairs_cons, gmin_cons]
      by_cases h : p.2 < 0
      · rw [if_pos h, if_pos h, ih, WithTop.coe_min, min_assoc]
      · rw [if_neg h, if_neg h, ih]

theorem gmin_append (l₁ l₂ : List (ℚ × ℚ)) :
    gmin (l₁ ++ l₂) = min (gmin l₁) (gmin l₂) := by
  simp only [gmin, List.filter_append, List.map_append]
  rw [← Multiset.coe_add, Multiset.inf_add, inf_eq_min]

theorem gmin_perm {l₁ l₂ : List (ℚ × ℚ)} (h : l₁.Perm l₂) : gmin l₁ = gmin l₂ := by
  unfold gmin
  congr 1
  exact Multiset.coe_eq_coe.mpr ((h.filter _).map _)

theorem foldPairs_append (l₁ l₂ : List (ℚ × ℚ)) (a : ℚ) :
    foldPairs (l₁ ++ l₂) a = min (foldPairs l₁ a) (foldPairs l₂ a) := by
  have h : ((foldPairs (l₁ ++ l₂) a : ℚ) : WithTop ℚ) =
      ((min (foldPairs l₁ a) (foldPairs l₂ a) : ℚ) : WithTop ℚ) := by
    rw [WithTop.coe_min, foldPairs_eq_gmin, foldPairs_eq_gmin, foldPairs_eq_gmin,
      gmin_append]
    exact inf_inf_distrib_left _ _ _
  exact_mod_cast h

theorem foldPairs_perm {l₁ l₂ : List (ℚ × ℚ)} (h : l₁.Perm l₂) (a : ℚ) :
    foldPairs l₁ a = foldPairs l₂ a := by
  have h2 : ((foldPairs l₁ a : ℚ) : WithTop ℚ) = ((foldPairs l₂ a : ℚ) : WithTop ℚ) := by
    rw [foldPairs_eq_gmin, foldPairs_eq_gmin, gmin_perm h]
  exact_mod_cast h2

theorem foldlMin_chunks (i : ℚ) (cs : List (List (ℚ × ℚ))) (a : ℚ) (ha : a ≤ i) :
    (cs.map (fun cchunk => foldPairs cchunk i)).foldl min a =
      min a (foldPairs cs.flatten i) := by
  induction cs generalizing a with
  | nil =>
      simp only [List.map_nil, List.foldl_nil, List.flatten, foldPairs, List.foldl_nil]
      exact (min_eq_left ha).symm
  | cons cchunk cs ih =>
      simp only [List.map_cons, List.foldl_cons, List.flatten]
      rw [ih (min a (foldPairs cchunk i))
        (le_trans (min_le_right _ _) (foldPairs_le _ _)),
        foldPairs_append, min_assoc]

theorem stepMaxDist_eq (chunkify : Vec → Vec → List (List (ℚ × ℚ)))
    (hch : ∀ v d, ((chunkify v d).flatten).Perm (v.zip d)) (v d : Vec) (init : ℚ) :
    stepMaxDist chunkify v d init = stepMax v d init := by
  unfold stepMaxDist stepMax allReduceMin
  rcases h : chunkify v d with _ | ⟨cchunk, cs⟩
  · have hnil : v.zip d = [] := by
      have := hch v d
      rw [h] at this
      exact (List.Perm.nil_eq this).symm
    rw [hnil]
    rfl
  · simp only [List.map_cons]
    rw [foldlMin_chunks init cs (foldPairs cchunk init) (foldPairs_le _ _),
      ← foldPairs_append]
    have hperm : (cchunk ++ cs.flatten).Perm (v.zip d) := by
      have := hch v d
      rwa [h] at this
    exact foldPairs_perm hperm init

/-! ### The distributed body computes the sequential body -/

theorem hadamard_comm (u v : Vec) : hadamard u v = hadamard v u :=
  List.zipWith_comm_of_comm _ mul_comm u v

theorem correctorRmuDist_eq (dxAff dzAff : Vec) (sigma mu : ℚ) :
    correctorRmuDist dxAff dzAff sigma mu = correctorRmu dxAff dzAff sigma mu := by
  unfold correctorRmuDist correctorRmu
  rw [hadamard_comm]

theorem mehrotraUpdateDist_eq {F : Type} (ops : MehrotraOps F)
    (chunkify : Vec → Vec → List (List (ℚ × ℚ)))
    (hch : ∀ v d, ((chunkify v d).flatten).Perm (v.zip d))
    (ctrl : MehrotraCtrl) (A : Mat) (b c : Vec) (st : St) :
    mehrotraUpdateDist ops chunkify ctrl A b c st =
      mehrotraUpdate ops ctrl A b c st := by
  simp only [mehrotraUpdateDist, mehrotraUpdate, finalStepLength,
    stepMaxDist_eq chunkify hch, correctorRmuDist_eq]

theorem mehrotraIterDist_eq {F : Type} (ops : MehrotraOps F)
    (chunkify : Vec → Vec → List (List (ℚ × ℚ)))
    (hch : ∀ v d, ((chunkify v d).flatten).Perm (v.zip d))
    (ctrl : MehrotraCtrl) (A : Mat) (b c : Vec) (bN cN : ℚ) (numIts : ℕ)
    (st : St) :
    mehrotraIterDist ops chunkify ctrl A b c bN cN numIts st =
      mehrotraIter ops ctrl A b c bN cN numIts st := by
  simp only [mehrotraIterDist, mehrotraIter, mehrotraUpdateDist_eq ops chunkify hch]

theorem mehrotraLoopDist_eq {F : Type} (ops : MehrotraOps F)
    (chunkify : Vec → Vec → List (List (ℚ × ℚ)))
    (hch : ∀ v d, ((chunkify v d).flatten).Perm (v.zip d))
    (ctrl : MehrotraCtrl) (A : Mat) (b c : Vec) (bN cN : ℚ) :
    ∀ (fuel numIts : ℕ) (st : St),
      mehrotraLoopDist ops chunkify ctrl A b c bN cN fuel numIts st =
        mehrotraLoop ops ctrl A b c bN cN fuel numIts st := by
  intro fuel
  induction fuel with
  | zero => intro numIts st; rfl
  | succ fuel ih =>
      intro numIts st
      simp only [mehrotraLoopDist, mehrotraLoop,
        mehrotraIterDist_eq ops chunkify hch]
      cases mehrotraIter ops ctrl A b c bN cN numIts st with
      | converged st2 => rfl
      | coneError nx nz => rfl
      | maxItsError => rfl
      | next st2 => exact ih (numIts + 1) st2

/-! ### Positivity of the updated iterate -/

theorem numNonPositive_eq_zero_iff (v : Vec) : numNonPositive v = 0 ↔ allPos v := by
  simp only [numNonPositive, allPos, List.length_eq_zero, List.filter_eq_nil_iff,
    decide_eq_true_eq, not_le]

theorem stepMax_pos (v d : Vec) (init : ℚ) (h : 0 < init) (hv : allPos v) :
    0 < stepMax v d init := by
  refine foldPairs_pos _ _ h (fun p hp => ?_)
  exact hv p.1 (List.of_mem_zip hp).1

theorem finalStepLength_pos (msr : ℚ) (v d : Vec) (h : 0 < msr) (hv : allPos v) :
    0 < finalStepLength msr v d := by
  refine lt_min (mul_pos h (stepMax_pos v d _ ?_ hv)) one_pos
  exact div_pos one_pos h

theorem finalStepLength_le_one (msr : ℚ) (v d : Vec) :
    finalStepLength msr v d ≤ 1 := min_le_right _ _

theorem allPos_axpy_of_lt_ratio (alpha : ℚ) (halpha : 0 < alpha) :
    ∀ (d v : Vec), (∀ p ∈ v.zip d, p.2 < 0 → alpha < -p.1 / p.2) →
      allPos v → allPos (axpy alpha d v) := by
  intro d
  induction d with
  | nil => intro v _ _ e he; simp [axpy] at he
  | cons dd d ih =>
      intro v hratio hv e he
      cases v with
      | nil => simp [axpy] at he
      | cons vx v =>
          simp only [axpy, List.zipWith_cons_cons, List.mem_cons] at he
          rcases he with he | he
          · subst he
            have hvx : 0 < vx := hv vx (List.mem_cons_self _ _)
            by_cases hd : dd < 0
            · have hb : alpha < -vx / dd :=
                hratio (vx, dd) (by simp [List.zip_cons_cons]) hd
              have hmul : -vx / dd * dd < alpha * dd :=
                mul_lt_mul_of_neg_right hb hd
              rw [div_mul_cancel₀ _ (ne_of_lt hd)] at hmul
              linarith
            · push_neg at hd
              have : 0 ≤ alpha * dd := mul_nonneg (le_of_lt halpha) hd
              linarith
          · refine ih v (fun p hp hneg => ?_) (fun e2 he2 => hv e2 (List.mem_cons_of_mem _ he2)) e he
            exact hratio p (by simp [List.zip_cons_cons, hp]) hneg

theorem axpy_step_pos (msr : ℚ) (v d : Vec) (h0 : 0 < msr) (h1 : msr < 1)
    (hv : allPos v) : allPos (axpy (finalStepLength msr v d) d v) := by
  refine allPos_axpy_of_lt_ratio _ (finalStepLength_pos msr v d h0 hv) d v
    (fun p hp hneg => ?_) hv
  have hSpos : 0 < stepMax v d (1 / msr) :=
    stepMax_pos v d _ (div_pos one_pos h0) hv
  calc finalStepLength msr v d ≤ msr * stepMax v d (1 / msr) := min_le_left _ _
    _ < stepMax v d (1 / msr) := mul_lt_of_lt_one_left hSpos h1
    _ ≤ -p.1 / p.2 := foldPairs_le_ratio _ _ _ hp hneg

/-- The update of step 9 always has the shape
`x += alphaPri * dx`, `z += alphaDual * dz` with the final step lengths. -/
theorem mehrotraUpdate_shape {F : Type} (ops : MehrotraOps F)
    (ctrl : MehrotraCtrl) (A : Mat) (b c : Vec) (st : St) :
    ∃ dx dy dz,
      mehrotraUpdate ops ctrl A b c st =
        (axpy (finalStepLength ctrl.maxStepRatio st.1 dx) dx st.1,
         axpy (finalStepLength ctrl.maxStepRatio st.2.2 dz) dy st.2.1,
         axpy (finalStepLength ctrl.maxStepRatio st.2.2 dz) dz st.2.2) :=
  ⟨_, _, _, rfl⟩

theorem mehrotraUpdate_pos {F : Type} (ops : MehrotraOps F)
    (ctrl : MehrotraCtrl) (A : Mat) (b c : Vec) (st : St)
    (h0 : 0 < ctrl.maxStepRatio) (h1 : ctrl.maxStepRatio < 1)
    (hx : allPos st.1) (hz : allPos st.2.2) :
    allPos (mehrotraUpdate ops ctrl A b c st).1 ∧
    allPos (mehrotraUpdate ops ctrl A b c st).2.2 := by
  obtain ⟨dx, dy, dz, hshape⟩ := mehrotraUpdate_shape ops ctrl A b c st
  rw [hshape]
  exact ⟨axpy_step_pos _ _ _ h0 h1 hx, axpy_step_pos _ _ _ h0 h1 hz⟩

/-! ### Characterization of the outer loop -/

section LoopLemmas

variable {F : Type} (ops : MehrotraOps F) (ctrl : MehrotraCtrl) (A : Mat)
  (b c : Vec) (bN cN : ℚ)

theorem mehrotraRunFrom_succ_front (j k : ℕ) (st st2 : St)
    (h : mehrotraIter ops ctrl A b c bN cN j st = .next st2) :
    mehrotraRunFrom ops ctrl A b c bN cN j st (k + 1) =
      mehrotraRunFrom ops ctrl A b c bN cN (j + 1) st2 k := by
  induction k with
  | zero =>
      simp only [mehrotraRunFrom, Nat.add_zero, h]
  | succ k ih =>
      have hidx : j + (k + 1) = (j + 1) + k := by omega
      simp only [mehrotraRunFrom] at ih ⊢
      rw [ih, hidx]

theorem mehrotraRunFrom_succ_front_stuck (j k : ℕ) (st : St)
    (h : ∀ st2, mehrotraIter ops ctrl A b c bN cN j st ≠ .next st2) :
    mehrotraRunFrom ops ctrl A b c bN cN j st (k + 1) = none := by
  induction k with
  | zero =>
      cases hit : mehrotraIter ops ctrl A b c bN cN j st with
      | next st2 => exact absurd hit (h st2)
      | converged st2 => simp [mehrotraRunFrom, hit]
      | coneError nx nz => simp [mehrotraRunFrom, hit]
      | maxItsError => simp [mehrotraRunFrom, hit]
  | succ k ih =>
      simp only [mehrotraRunFrom] at ih ⊢
      rw [ih]

theorem mehrotraLoop_stop_iff : ∀ (fuel j : ℕ) (st : St) (R : MehrotraResult),
    (mehrotraLoop ops ctrl A b c bN cN fuel j st = R ∧ R ≠ .outOfFuel) ↔
      ∃ k, k < fuel ∧ ∃ stk,
        mehrotraRunFrom ops ctrl A b c bN cN j st k = some stk ∧
        stopResult (mehrotraIter ops ctrl A b c bN cN (j + k) stk) = some R := by
  intro fuel
  induction fuel with
  | zero =>
      intro j st R
      constructor
      · rintro ⟨hL, hR⟩
        exact absurd hL.symm hR
      · rintro ⟨k, hk, _⟩
        exact absurd hk (Nat.not_lt_zero k)
  | succ fuel ih =>
      intro j st R
      cases hit : mehrotraIter ops ctrl A b c bN cN j st with
      | next st2 =>
          constructor
          · rintro ⟨hL, hR⟩
            simp only [mehrotraLoop, hit] at hL
            obtain ⟨k, hk, stk, hrun, hstop⟩ := (ih (j + 1) st2 R).mp ⟨hL, hR⟩
            refine ⟨k + 1, by omega, stk, ?_, ?_⟩
            · rw [mehrotraRunFrom_succ_front ops ctrl A b c bN cN j k st st2 hit]
              exact hrun
            · have : j + (k + 1) = (j + 1) + k := by omega
              rw [this]
              exact hstop
          · rintro ⟨k, hk, stk, hrun, hstop⟩
            cases k with
            | zero =>
                simp only [mehrotraRunFrom] at hrun
                cases hrun
                rw [Nat.add_zero, hit] at hstop
                simp [stopResult] at hstop
            | succ k =>
                rw [mehrotraRunFrom_succ_front ops ctrl A b c bN cN j k st st2 hit] at hrun
                have hidx : j + (k + 1) = (j + 1) + k := by omega
                rw [hidx] at hstop
                have hres := (ih (j + 1) st2 R).mpr ⟨k, by omega, stk, hrun, hstop⟩
                simp only [mehrotraLoop, hit]
                exact hres
      | converged st2 =>
          constructor
          · rintro ⟨hL, _⟩
            simp only [mehrotraLoop, hit] at hL
            exact ⟨0, Nat.succ_pos fuel, st, rfl, by rw [Nat.add_zero, hit, ← hL]; rfl⟩
          · rintro ⟨k, _, stk, hrun, hstop⟩
            cases k with
            | zero =>
                simp only [mehrotraRunFrom] at hrun
                cases hrun
                rw [Nat.add_zero, hit] at hstop
                simp only [stopResult, Option.some.injEq] at hstop
                subst hstop
                exact ⟨by simp [mehrotraLoop, hit], by simp⟩
            | succ k =>
                rw [mehrotraRunFrom_succ_front_stuck ops ctrl A b c bN cN j k st
                  (fun st2 h => by rw [hit] at h; cases h)] at hrun
                cases hrun
      | coneError nx nz =>
          constructor
          · rintro ⟨hL, _⟩
            simp only [mehrotraLoop, hit] at hL
            exact ⟨0, Nat.succ_pos fuel, st, rfl, by rw [Nat.add_zero, hit, ← hL]; rfl⟩
          · rintro ⟨k, _, stk, hrun, hstop⟩
            cases k with
            | zero =>
                simp only [mehrotraRunFrom] at hrun
                cases hrun
                rw [Nat.add_zero, hit] at hstop
                simp only [stopResult, Option.some.injEq] at hstop
                subst hstop
                exact ⟨by simp [mehrotraLoop, hit], by simp⟩
            | succ k =>
                rw [mehrotraRunFrom_succ_front_stuck ops ctrl A b c bN cN j k st
                  (fun st2 h => by rw [hit] at h; cases h)] at hrun
                cases hrun
      | maxItsError =>
          constructor
          · rintro ⟨hL, _⟩
            simp only [mehrotraLoop, hit] at hL
            exact ⟨0, Nat.succ_pos fuel, st, rfl, by rw [Nat.add_zero, hit, ← hL]; rfl⟩
          · rintro ⟨k, _, stk, hrun, hstop⟩
            cases k with
            | zero =>
                simp only [mehrotraRunFrom] at hrun
                cases hrun
                rw [Nat.add_zero, hit] at hstop
                simp only [stopResult, Option.some.injEq] at hstop
                subst hstop
                exact ⟨by simp [mehrotraLoop, hit], by simp⟩
            | succ k =>
                rw [mehrotraRunFrom_succ_front_stuck ops ctrl A b c bN cN j k st
                  (fun st2 h => by rw [hit] at h; cases h)] at hrun
                cases hrun

theorem mehrotraIter_at_cap_not_next (st st2 : St) :
    mehrotraIter ops ctrl A b c bN cN ctrl.maxIts st ≠ .next st2 := by
  unfold mehrotraIter
  split
  · simp
  · split
    · simp
    · simp

theorem mehrotraLoop_not_outOfFuel : ∀ (fuel j : ℕ) (st : St),
    ctrl.maxIts + 1 ≤ j + fuel → j ≤ ctrl.maxIts →
      mehrotraLoop ops ctrl A b c bN cN fuel j st ≠ .outOfFuel := by
  intro fuel
  induction fuel with
  | zero =>
      intro j st hle hj
      omega
  | succ fuel ih =>
      intro j st hle hj
      cases hit : mehrotraIter ops ctrl A b c bN cN j st with
      | next st2 =>
          have hne : j ≠ ctrl.maxIts := by
            intro hj2
            subst hj2
            exact mehrotraIter_at_cap_not_next ops ctrl A b c bN cN st st2 hit
          simp only [mehrotraLoop, hit]
          exact ih (j + 1) st2 (by omega) (by omega)
      | converged st2 => simp [mehrotraLoop, hit]
      | coneError nx nz => simp [mehrotraLoop, hit]
      | maxItsError => simp [mehrotraLoop, hit]

theorem mehrotraRunFrom_some_of_le (j : ℕ) (st : St) :
    ∀ (k i : ℕ), i ≤ k →
      (∃ stk, mehrotraRunFrom ops ctrl A b c bN cN j st k = some stk) →
      ∃ s, mehrotraRunFrom ops ctrl A b c bN cN j st i = some s := by
  intro k
  induction k with
  | zero =>
      intro i hi h
      rw [Nat.le_zero.mp hi]
      exact h
  | succ k ih =>
      intro i hi h
      rcases Nat.lt_or_ge i (k + 1) with hlt | hge
      · obtain ⟨stk, hstk⟩ := h
        simp only [mehrotraRunFrom] at hstk
        rcases hrec : mehrotraRunFrom ops ctrl A b c bN cN j st k with _ | s
        · rw [hrec] at hstk; cases hstk
        · exact ih i (by omega) ⟨s, hrec⟩
      · have : i = k + 1 := by omega
        subst this
        exact h

/-- A trajectory of successful iterations can never be longer than
`ctrl.maxIts` steps: the iteration-cap check stops iteration `maxIts`. -/
theorem mehrotraRunFrom_le_cap (st : St) (k : ℕ) (stk : St)
    (h : mehrotraRunFrom ops ctrl A b c bN cN 0 st k = some stk) :
    k ≤ ctrl.maxIts := by
  by_contra hgt
  push_neg at hgt
  obtain ⟨s, hs⟩ := mehrotraRunFrom_some_of_le ops ctrl A b c bN cN 0 st k
    (ctrl.maxIts + 1) (by omega) ⟨stk, h⟩
  rcases hrec : mehrotraRunFrom ops ctrl A b c bN cN 0 st ctrl.maxIts with _ | s2
  · simp only [mehrotraRunFrom, hrec] at hs
    exact Option.noConfusion hs
  · simp only [mehrotraRunFrom, hrec] at hs
    rw [Nat.zero_add] at hs
    cases hit : mehrotraIter ops ctrl A b c bN cN ctrl.maxIts s2 with
    | next st3 =>
        exact mehrotraIter_at_cap_not_next ops ctrl A b c bN cN s2 st3 hit
    | converged st3 => rw [hit] at hs; exact Option.noConfusion hs
    | coneError nx nz => rw [hit] at hs; exact Option.noConfusion hs
    | maxItsError => rw [hit] at hs; exact Option.noConfusion hs

theorem mehrotraIter_converged_iff (k : ℕ) (st st2 : St) :
    mehrotraIter ops ctrl A b c bN cN k st = .converged st2 ↔
      (numNonPositive st.1 = 0 ∧ numNonPositive st.2.2 = 0 ∧
       convTest ops.nrm2 ctrl.tol A b c bN cN st.1 st.2.1 st.2.2 ∧ st2 = st) := by
  unfold mehrotraIter
  split
  · rename_i hcone
    simp only [reduceCtorEq, false_iff]
    rintro ⟨hx, hz, _, _⟩
    rw [hx, hz] at hcone
    simp at hcone
  · rename_i hcone
    push_neg at hcone
    have hx : numNonPositive st.1 = 0 := by omega
    have hz : numNonPositive st.2.2 = 0 := by omega
    split
    · rename_i hconv
      simp [hx, hz, hconv, eq_comm]
    · rename_i hconv
      split <;> simp [hx, hz, hconv]

theorem mehrotraIter_coneError_iff (k : ℕ) (st : St) (nx nz : ℕ) :
    mehrotraIter ops ctrl A b c bN cN k st = .coneError nx nz ↔
      ((0 < numNonPositive st.1 ∨ 0 < numNonPositive st.2.2) ∧
       nx = numNonPositive st.1 ∧ nz = numNonPositive st.2.2) := by
  unfold mehrotraIter
  split
  · rename_i hcone
    simp [hcone, eq_comm]
  · rename_i hcone
    split
    · simp [hcone]
    · split <;> simp [hcone]

theorem mehrotraIter_maxItsError_iff (k : ℕ) (st : St) :
    mehrotraIter ops ctrl A b c bN cN k st = .maxItsError ↔
      (numNonPositive st.1 = 0 ∧ numNonPositive st.2.2 = 0 ∧
       ¬ convTest ops.nrm2 ctrl.tol A b c bN cN st.1 st.2.1 st.2.2 ∧
       k = ctrl.maxIts) := by
  unfold mehrotraIter
  split
  · rename_i hcone
    simp only [reduceCtorEq, false_iff]
    rintro ⟨hx, hz, _, _⟩
    rw [hx, hz] at hcone
    simp at hcone
  · rename_i hcone
    push_neg at hcone
    have hx : numNonPositive st.1 = 0 := by omega
    have hz : numNonPositive st.2.2 = 0 := by omega
    split
    · rename_i hconv
      simp [hx, hz, hconv]
    · rename_i hconv
      split <;> simp_all

end LoopLemmas

/-! ### The refinement loop reports only residuals it has verified -/

theorem refinedSolveLoop_met (applyA applyAInv : Vec → Vec) (b : Vec)
    (relTol : ℚ) : ∀ (fuel its : ℕ) (x : Vec),
    (refinedSolveLoop applyA applyAInv b relTol fuel its x).2.metRequestedTol = true →
    relResWithin
      (vsub b (applyA (refinedSolveLoop applyA applyAInv b relTol fuel its x).1))
      b relTol := by
  intro fuel
  induction fuel with
  | zero =>
      intro its x h
      simpa [refinedSolveLoop, decide_eq_true_eq] using h
  | succ fuel ih =>
      intro its x h
      simp only [refinedSolveLoop] at h ⊢
      by_cases hres : relResWithin (vsub b (applyA x)) b relTol
      · rw [if_pos hres] at h ⊢
        exact hres
      · rw [if_neg hres] at h ⊢
        by_cases hdec : nrmSq (vsub b (applyA (vadd x (applyAInv (vsub b (applyA x)))))) <
            nrmSq (vsub b (applyA x))
        · rw [if_pos hdec] at h ⊢
          exact ih (its + 1) _ h
        · rw [if_neg hdec] at h
          simp at h

theorem refinedSolve_met (applyA applyAInv : Vec → Vec) (b : Vec)
    (relTol : ℚ) (maxRefineIts : ℕ)
    (h : (refinedSolve applyA applyAInv b relTol maxRefineIts).2.metRequestedTol = true) :
    relResWithin
      (vsub b (applyA (refinedSolve applyA applyAInv b relTol maxRefineIts).1))
      b relTol :=
  refinedSolveLoop_met applyA applyAInv b relTol maxRefineIts 0 (applyAInv b) h

theorem stopResult_eq_ok (r : IterResult) (s : St) :
    stopResult r = some (.ok s) ↔ r = .converged s := by
  cases r <;> simp [stopResult]

theorem stopResult_eq_logicError (r : IterResult) (nx nz : ℕ) :
    stopResult r = some (.logicError nx nz) ↔ r = .coneError nx nz := by
  cases r <;> simp [stopResult]

theorem stopResult_eq_runtimeError (r : IterResult) :
    stopResult r = some .runtimeError ↔ r = .maxItsError := by
  cases r <;> simp [stopResult]

theorem singleChunk_perm (v d : Vec) :
    ((singleChunk v d).flatten).Perm (v.zip d) := by
  simp [singleChunk]

/-! ### Claim theorems -/

/-- C1: in both the dense sequential and dense distributed variants of
`Mehrotra`, with `0 < ctrl.maxStepRatio < 1`, after every accepted
update `x += alphaPri*dx`, `z += alphaDual*dz` (step 9, the `.next`
outcome of an iteration) `x` and `z` remain strictly positive
componentwise, so the cone check at the top of the next iteration
(`NumNonPositive` of `x` or of `z` being positive) never fires. -/
theorem mehrotra_step_preserves_positivity {F : Type} (ops : MehrotraOps F)
    (ctrl : MehrotraCtrl) (A : Mat) (b c : Vec) (bN cN : ℚ) (numIts : ℕ)
    (st st2 : St) (h0 : 0 < ctrl.maxStepRatio) (h1 : ctrl.maxStepRatio < 1)
    (h : mehrotraIter ops ctrl A b c bN cN numIts st = .next st2) :
    allPos st2.1 ∧ allPos st2.2.2 ∧
    numNonPositive st2.1 = 0 ∧ numNonPositive st2.2.2 = 0 ∧
    (∀ (chunkify : Vec → Vec → List (List (ℚ × ℚ))),
      (∀ v d, ((chunkify v d).flatten).Perm (v.zip d)) →
      ∀ st3, mehrotraIterDist ops chunkify ctrl A b c bN cN numIts st = .next st3 →
        allPos st3.1 ∧ allPos st3.2.2 ∧
        numNonPositive st3.1 = 0 ∧ numNonPositive st3.2.2 = 0) := by
  have hmain : ∀ st4, mehrotraIter ops ctrl A b c bN cN numIts st = .next st4 →
      allPos st4.1 ∧ allPos st4.2.2 := by
    intro st4 h4
    unfold mehrotraIter at h4
    split at h4
    · cases h4
    · rename_i hcone
      push_neg at hcone
      have hx : allPos st.1 := by
        rw [← numNonPositive_eq_zero_iff]
        omega
      have hz : allPos st.2.2 := by
        rw [← numNonPositive_eq_zero_iff]
        omega
      split at h4
      · cases h4
      · split at h4
        · cases h4
        · cases h4
          exact mehrotraUpdate_pos ops ctrl A b c st h0 h1 hx hz
  obtain ⟨hp1, hp2⟩ := hmain st2 h
  refine ⟨hp1, hp2, (numNonPositive_eq_zero_iff _).mpr hp1,
    (numNonPositive_eq_zero_iff _).mpr hp2, ?_⟩
  intro chunkify hch st3 h3
  rw [mehrotraIterDist_eq ops chunkify hch] at h3
  obtain ⟨hq1, hq2⟩ := hmain st3 h3
  exact ⟨hq1, hq2, (numNonPositive_eq_zero_iff _).mpr hq1,
    (numNonPositive_eq_zero_iff _).mpr hq2⟩

theorem mehrotra_step_preserves_positivity_witness :
    0 < trivCtrl.maxStepRatio ∧ trivCtrl.maxStepRatio < 1 ∧
    allPos (([], [], []) : St).1 ∧ allPos (([], [], []) : St).2.2 := by
  have h : mehrotraIter trivOps trivCtrl [[1]] [1] [1] 0 0 0 ([1], [0], [1]) =
      .next ([], [], []) := by
    norm_num [mehrotraIter, trivOps, trivCtrl, numNonPositive, convTest, objConv, dot,
      rbRes, rcRes, gemvN, gemvT, scale, axpy, mehrotraUpdate, affineSolve, correctorSolve,
      hadamard, vshift, correctorRmu, stepMax, foldPairs, finalStepLength, matWidth]
  have h0 : 0 < trivCtrl.maxStepRatio := by norm_num [trivCtrl]
  have h1 : trivCtrl.maxStepRatio < 1 := by norm_num [trivCtrl]
  obtain ⟨p1, p2, _⟩ := mehrotra_step_preserves_positivity trivOps trivCtrl
    [[1]] [1] [1] 0 0 0 ([1], [0], [1]) ([], [], []) h0 h1 h
  exact ⟨h0, h1, p1, p2⟩

/-- C2: `Mehrotra` terminates successfully (returns `.ok`) exactly when,
at the top of some iteration of the trajectory (where the cone check has
passed), all three convergence criteria hold simultaneously:
`|cᵀx - (-bᵀy)| / (1+|cᵀx|) ≤ ctrl.tol`, `‖Ax-b‖ / (1+‖b‖) ≤ ctrl.tol`
and `‖Aᵀy-z+c‖ / (1+‖c‖) ≤ ctrl.tol`; when one of the three exceeds
`ctrl.tol` that iteration instead continues (or fails on the cap). -/
theorem mehrotra_converged_iff_criteria {F : Type} (ops : MehrotraOps F)
    (ctrl : MehrotraCtrl) (A : Mat) (b c x y z : Vec) (st2 : St) :
    Mehrotra ops ctrl A b c x y z = .ok st2 ↔
      ∃ k stk,
        mehrotraRunFrom ops ctrl A b c (ops.nrm2 b) (ops.nrm2 c) 0
          (startState ops ctrl A b c x y z) k = some stk ∧
        numNonPositive stk.1 = 0 ∧ numNonPositive stk.2.2 = 0 ∧
        objConv b c stk.1 stk.2.1 ≤ ctrl.tol ∧
        ops.nrm2 (rbRes A b stk.1) / (1 + ops.nrm2 b) ≤ ctrl.tol ∧
        ops.nrm2 (rcRes A c stk.2.1 stk.2.2) / (1 + ops.nrm2 c) ≤ ctrl.tol ∧
        st2 = stk := by
  constructor
  · intro h
    have h2 : mehrotraLoop ops ctrl A b c (ops.nrm2 b) (ops.nrm2 c)
        (ctrl.maxIts + 1) 0 (startState ops ctrl A b c x y z) = .ok st2 := h
    obtain ⟨k, _, stk, hrun, hstop⟩ :=
      (mehrotraLoop_stop_iff ops ctrl A b c (ops.nrm2 b) (ops.nrm2 c)
        (ctrl.maxIts + 1) 0 (startState ops ctrl A b c x y z) (.ok st2)).mp
        ⟨h2, by simp⟩
    rw [stopResult_eq_ok, Nat.zero_add] at hstop
    obtain ⟨hx, hz, hconv, hst⟩ :=
      (mehrotraIter_converged_iff ops ctrl A b c (ops.nrm2 b) (ops.nrm2 c)
        k stk st2).mp hstop
    obtain ⟨h1, h2, h3⟩ := hconv
    exact ⟨k, stk, hrun, hx, hz, h1, h2, h3, hst⟩
  · rintro ⟨k, stk, hrun, hx, hz, h1, h2, h3, hst⟩
    have hk : k ≤ ctrl.maxIts :=
      mehrotraRunFrom_le_cap ops ctrl A b c (ops.nrm2 b) (ops.nrm2 c) _ k stk hrun
    have hco :=
      (mehrotraIter_converged_iff ops ctrl A b c (ops.nrm2 b) (ops.nrm2 c)
        k stk st2).mpr ⟨hx, hz, ⟨h1, h2, h3⟩, hst⟩
    have hres :=
      (mehrotraLoop_stop_iff ops ctrl A b c (ops.nrm2 b) (ops.nrm2 c)
        (ctrl.maxIts + 1) 0 (startState ops ctrl A b c x y z) (.ok st2)).mpr
        ⟨k, by omega, stk, hrun, by rw [Nat.zero_add, stopResult_eq_ok]; exact hco⟩
    exact hres.1

theorem mehrotra_converged_iff_criteria_witness :
    Mehrotra trivOps trivCtrl [[1]] [1] [1] [1] [-1] [1] = .ok ([1], [-1], [1]) := by
  rw [mehrotra_converged_iff_criteria]
  refine ⟨0, ([1], [-1], [1]), by norm_num [mehrotraRunFrom, startState, trivCtrl], ?_, ?_, ?_, ?_, ?_, rfl⟩
  · norm_num [numNonPositive]
  · norm_num [numNonPositive]
  · norm_num [objConv, dot, trivCtrl]
  · norm_num [trivOps, trivCtrl]
  · norm_num [trivOps, trivCtrl]

/-- C3: the driver raises a `LogicError` exactly when at the top of some
reached iteration a component of `x` or `z` is non-positive (the error
reporting the two counts); it raises a `RuntimeError` exactly when the
iteration counter reaches `ctrl.maxIts` with the cone check passing and
the convergence test failing; an iterate satisfying all three criteria
at iteration `ctrl.maxIts` still returns successfully (the convergence
test precedes the cap check); and the driver raises no other error
(the fuelled loop's `outOfFuel` is unreachable). -/
theorem mehrotra_errors_characterization {F : Type} (ops : MehrotraOps F)
    (ctrl : MehrotraCtrl) (A : Mat) (b c x y z : Vec) :
    (∀ nx nz, Mehrotra ops ctrl A b c x y z = .logicError nx nz ↔
      ∃ k stk,
        mehrotraRunFrom ops ctrl A b c (ops.nrm2 b) (ops.nrm2 c) 0
          (startState ops ctrl A b c x y z) k = some stk ∧
        (0 < numNonPositive stk.1 ∨ 0 < numNonPositive stk.2.2) ∧
        nx = numNonPositive stk.1 ∧ nz = numNonPositive stk.2.2) ∧
    (Mehrotra ops ctrl A b c x y z = .runtimeError ↔
      ∃ stk,
        mehrotraRunFrom ops ctrl A b c (ops.nrm2 b) (ops.nrm2 c) 0
          (startState ops ctrl A b c x y z) ctrl.maxIts = some stk ∧
        numNonPositive stk.1 = 0 ∧ numNonPositive stk.2.2 = 0 ∧
        ¬ (objConv b c stk.1 stk.2.1 ≤ ctrl.tol ∧
           ops.nrm2 (rbRes A b stk.1) / (1 + ops.nrm2 b) ≤ ctrl.tol ∧
           ops.nrm2 (rcRes A c stk.2.1 stk.2.2) / (1 + ops.nrm2 c) ≤ ctrl.tol)) ∧
    (∀ stk,
      mehrotraRunFrom ops ctrl A b c (ops.nrm2 b) (ops.nrm2 c) 0
          (startState ops ctrl A b c x y z) ctrl.maxIts = some stk →
      numNonPositive stk.1 = 0 → numNonPositive stk.2.2 = 0 →
      objConv b c stk.1 stk.2.1 ≤ ctrl.tol →
      ops.nrm2 (rbRes A b stk.1) / (1 + ops.nrm2 b) ≤ ctrl.tol →
      ops.nrm2 (rcRes A c stk.2.1 stk.2.2) / (1 + ops.nrm2 c) ≤ ctrl.tol →
      Mehrotra ops ctrl A b c x y z = .ok stk) ∧
    Mehrotra ops ctrl A b c x y z ≠ .outOfFuel := by
  refine ⟨?_, ?_, ?_, ?_⟩
  · intro nx nz
    constructor
    · intro h
      have h2 : mehrotraLoop ops ctrl A b c (ops.nrm2 b) (ops.nrm2 c)
          (ctrl.maxIts + 1) 0 (startState ops ctrl A b c x y z) =
          .logicError nx nz := h
      obtain ⟨k, _, stk, hrun, hstop⟩ :=
        (mehrotraLoop_stop_iff ops ctrl A b c (ops.nrm2 b) (ops.nrm2 c)
          (ctrl.maxIts + 1) 0 (startState ops ctrl A b c x y z)
          (.logicError nx nz)).mp ⟨h2, by simp⟩
      rw [stopResult_eq_logicError, Nat.zero_add] at hstop
      obtain ⟨hor, hnx, hnz⟩ :=
        (mehrotraIter_coneError_iff ops ctrl A b c (ops.nrm2 b) (ops.nrm2 c)
          k stk nx nz).mp hstop
      exact ⟨k, stk, hrun, hor, hnx, hnz⟩
    · rintro ⟨k, stk, hrun, hor, hnx, hnz⟩
      have hk : k ≤ ctrl.maxIts :=
        mehrotraRunFrom_le_cap ops ctrl A b c (ops.nrm2 b) (ops.nrm2 c) _ k stk hrun
      have hco :=
        (mehrotraIter_coneError_iff ops ctrl A b c (ops.nrm2 b) (ops.nrm2 c)
          k stk nx nz).mpr ⟨hor, hnx, hnz⟩
      have hres :=
        (mehrotraLoop_stop_iff ops ctrl A b c (ops.nrm2 b) (ops.nrm2 c)
          (ctrl.maxIts + 1) 0 (startState ops ctrl A b c x y z)
          (.logicError nx nz)).mpr
          ⟨k, by omega, stk, hrun,
           by rw [Nat.zero_add, stopResult_eq_logicError]; exact hco⟩
      exact hres.1
  · constructor
    · intro h
      have h2 : mehrotraLoop ops ctrl A b c (ops.nrm2 b) (ops.nrm2 c)
          (ctrl.maxIts + 1) 0 (startState ops ctrl A b c x y z) =
          .runtimeError := h
      obtain ⟨k, _, stk, hrun, hstop⟩ :=
        (mehrotraLoop_stop_iff ops ctrl A b c (ops.nrm2 b) (ops.nrm2 c)
          (ctrl.maxIts + 1) 0 (startState ops ctrl A b c x y z)
          .runtimeError).mp ⟨h2, by simp⟩
      rw [stopResult_eq_runtimeError, Nat.zero_add] at hstop
      obtain ⟨hx, hz, hnconv, hkcap⟩ :=
        (mehrotraIter_maxItsError_iff ops ctrl A b c (ops.nrm2 b) (ops.nrm2 c)
          k stk).mp hstop
      subst hkcap
      exact ⟨stk, hrun, hx, hz, hnconv⟩
    · rintro ⟨stk, hrun, hx, hz, hnconv⟩
      have hco :=
        (mehrotraIter_maxItsError_iff ops ctrl A b c (ops.nrm2 b) (ops.nrm2 c)
          ctrl.maxIts stk).mpr ⟨hx, hz, hnconv, rfl⟩
      have hres :=
        (mehrotraLoop_stop_iff ops ctrl A b c (ops.nrm2 b) (ops.nrm2 c)
          (ctrl.maxIts + 1) 0 (startState ops ctrl A b c x y z)
          .runtimeError).mpr
          ⟨ctrl.maxIts, by omega, stk, hrun,
           by rw [Nat.zero_add, stopResult_eq_runtimeError]; exact hco⟩
      exact hres.1
  · intro stk hrun hx hz h1 h2 h3
    have hco :=
      (mehrotraIter_converged_iff ops ctrl A b c (ops.nrm2 b) (ops.nrm2 c)
        ctrl.maxIts stk stk).mpr ⟨hx, hz, ⟨h1, h2, h3⟩, rfl⟩
    have hres :=
      (mehrotraLoop_stop_iff ops ctrl A b c (ops.nrm2 b) (ops.nrm2 c)
        (ctrl.maxIts + 1) 0 (startState ops ctrl A b c x y z) (.ok stk)).mpr
        ⟨ctrl.maxIts, by omega, stk, hrun,
         by rw [Nat.zero_add, stopResult_eq_ok]; exact hco⟩
    exact hres.1
  · exact mehrotraLoop_not_outOfFuel ops ctrl A b c (ops.nrm2 b) (ops.nrm2 c)
      (ctrl.maxIts + 1) 0 (startState ops ctrl A b c x y z) (by omega) (by omega)

theorem mehrotra_errors_characterization_witness :
    Mehrotra trivOps trivCtrl [[1]] [1] [1] [-1] [0] [1] = .logicError 1 0 := by
  have h := (mehrotra_errors_characterization trivOps trivCtrl [[1]] [1] [1]
    [-1] [0] [1]).1 1 0
  rw [h]
  exact ⟨0, ([-1], [0], [1]),
    by norm_num [mehrotraRunFrom, startState, trivCtrl],
    by norm_num [numNonPositive],
    by norm_num [numNonPositive],
    by norm_num [numNonPositive]⟩

theorem foldPairs_eq_filterMap : ∀ (l : List (ℚ × ℚ)) (a : ℚ),
    foldPairs l a =
      ((l.filter (fun p => decide (p.2 < 0))).map (fun p => -p.1 / p.2)).foldl min a := by
  intro l
  induction l with
  | nil => intro a; rfl
  | cons p l ih =>
      intro a
      rw [foldPairs_cons]
      by_cases h : p.2 < 0
      · rw [if_pos h]
        rw [List.filter_cons_of_pos (by simp [h]), List.map_cons, List.foldl_cons]
        exact ih (min a (-p.1 / p.2))
      · rw [if_neg h]
        rw [List.filter_cons_of_neg (by simp [h])]
        exact ih a

/-- C4: the final primal step length computed in step 8 equals
`min 1 (maxStepRatio * min(1/maxStepRatio, min over i with dᵢ<0 of -vᵢ/dᵢ))`;
it never exceeds 1; and (for an in-cone `v` and `0 < maxStepRatio ≤ 1`)
whenever `dᵢ < 0` the stepped coordinate `vᵢ + alpha*dᵢ` never becomes
negative.  The same function computes the dual step length over `z, dz`. -/
theorem finalStepLength_formula_and_safety (msr : ℚ) (v d : Vec) :
    finalStepLength msr v d =
      min 1 (msr * (((v.zip d).filter (fun p => decide (p.2 < 0))).map
        (fun p => -p.1 / p.2)).foldl min (1 / msr)) ∧
    finalStepLength msr v d ≤ 1 ∧
    (0 < msr → msr ≤ 1 → allPos v →
      ∀ p ∈ v.zip d, p.2 < 0 → 0 ≤ p.1 + finalStepLength msr v d * p.2) := by
  refine ⟨?_, min_le_right _ _, ?_⟩
  · rw [finalStepLength, stepMax, foldPairs_eq_filterMap, min_comm]
  · intro h0 h1 hv p hp hneg
    have hS : stepMax v d (1 / msr) ≤ -p.1 / p.2 :=
      foldPairs_le_ratio _ _ _ hp hneg
    have hSpos : 0 < stepMax v d (1 / msr) :=
      stepMax_pos v d _ (div_pos one_pos h0) hv
    have hle : finalStepLength msr v d ≤ -p.1 / p.2 := by
      calc finalStepLength msr v d ≤ msr * stepMax v d (1 / msr) := min_le_left _ _
        _ ≤ stepMax v d (1 / msr) :=
            mul_le_of_le_one_left (le_of_lt hSpos) h1
        _ ≤ -p.1 / p.2 := hS
    have hmul : -p.1 / p.2 * p.2 ≤ finalStepLength msr v d * p.2 :=
      mul_le_mul_of_nonpos_right hle (le_of_lt hneg)
    rw [div_mul_cancel₀ _ (ne_of_lt hneg)] at hmul
    linarith

theorem finalStepLength_formula_and_safety_witness :
    (0 < (1 / 2 : ℚ)) ∧ ((1 / 2 : ℚ) ≤ 1) ∧ allPos [1] ∧ ((-1 : ℚ) < 0) ∧
    0 ≤ (1 : ℚ) + finalStepLength (1 / 2) [1] [-1] * (-1) :=
  ⟨by norm_num, by norm_num, by norm_num [allPos], by norm_num,
   (finalStepLength_formula_and_safety (1 / 2) [1] [-1]).2.2
     (by norm_num) (by norm_num) (by norm_num [allPos]) ((1 : ℚ), (-1 : ℚ))
     (by simp) (by norm_num)⟩

/-- C5: in every Mehrotra iteration the corrector step re-solves the
same already-factored KKT system as the affine step — the factorization
value `fact` produced for the affine solve is passed unchanged to
`correctorSolve`, which never refactors — with the right-hand side
rebuilt from zeroed `rb`, `rc` and
`rmu = dxAff ∘ dzAff - sigma*mu`, where `mu = (x·z)/n`,
`muAff = ((x+alphaAffPri*dxAff)·(z+alphaAffDual*dzAff))/n` and
`sigma = (muAff/mu)^3`; afterwards the affine direction is added:
`(dx,dy,dz) += (dxAff,dyAff,dzAff)`. -/
theorem mehrotra_corrector_reuses_factorization {F : Type}
    (ops : MehrotraOps F) (ctrl : MehrotraCtrl) (A : Mat) (b c : Vec) (st : St) :
    ∃ fact dxAff dyAff dzAff,
      affineSolve ops ctrl.system A c A.length (matWidth A) st.1 st.2.2
          (rcRes A c st.2.1 st.2.2) (rbRes A b st.1) (hadamard st.1 st.2.2) =
        (fact, dxAff, dyAff, dzAff) ∧
      mehrotraUpdate ops ctrl A b c st =
        (let n := matWidth A
         let alphaAffPri := stepMax st.1 dxAff 1
         let alphaAffDual := stepMax st.2.2 dzAff 1
         let mu := dot st.1 st.2.2 / (n : ℚ)
         let muAff := dot (axpy alphaAffPri dxAff st.1)
           (axpy alphaAffDual dzAff st.2.2) / (n : ℚ)
         let sigma := (muAff / mu) ^ 3
         let s := correctorSolve ops ctrl.system A c A.length n st.1 st.2.2 fact
           (correctorRmu dxAff dzAff sigma mu)
         let dx := axpy 1 dxAff s.1
         let dy := axpy 1 dyAff s.2.1
         let dz := axpy 1 dzAff s.2.2
         (axpy (finalStepLength ctrl.maxStepRatio st.1 dx) dx st.1,
          axpy (finalStepLength ctrl.maxStepRatio st.2.2 dz) dy st.2.1,
          axpy (finalStepLength ctrl.maxStepRatio st.2.2 dz) dz st.2.2)) :=
  ⟨_, _, _, _, rfl, rfl⟩

/-- C6 (counterexample to the claim as stated): a call of
`RegularizedSolveAfterNoPromote` that reports `metRequestedTol = true`
while the relative residual with respect to the unregularized matrix
`A` exceeds `relTol` (here `A = [[0]]`, `reg = [1]`, exact surrogate
solve, `B = [1]`, `relTol = 1/2`: the returned `X = [1]` solves the
regularized system exactly but leaves unregularized relative residual 1). -/
theorem regularizedSolveAfter_residual_counterexample :
    (regularizedSolveAfterNoPromote [[0]] [1] id [1] (1 / 2) 5).2.metRequestedTol = true ∧
    ¬ relResWithin
        (vsub [1] (matVec [[0]]
          (regularizedSolveAfterNoPromote [[0]] [1] id [1] (1 / 2) 5).1))
        [1] (1 / 2) := by
  norm_num [regularizedSolveAfterNoPromote, refinedSolve, refinedSolveLoop,
    relResWithin, regularizedApply, vsub, vadd, hadamard, matVec, dot, nrmSq]

/-- C6 (amended): the relative residual that `metRequestedTol` certifies
is measured with respect to the *regularized* system matrix
`A + diag(reg)` (the `applyA` operator of the source), not the
unregularized `A`: on success `‖B - (diag(reg)·X + A·X)‖ ≤ relTol·‖B‖`
(stated in squared form over `ℚ`). -/
theorem regularizedSolveAfter_residual_regularized (A : Mat) (reg : Vec)
    (solve : Vec → Vec) (B : Vec) (relTol : ℚ) (maxRefineIts : ℕ)
    (h : (regularizedSolveAfterNoPromote A reg solve B relTol
      maxRefineIts).2.metRequestedTol = true) :
    relResWithin
      (vsub B (regularizedApply A reg
        (regularizedSolveAfterNoPromote A reg solve B relTol maxRefineIts).1))
      B relTol :=
  refinedSolve_met _ solve B relTol maxRefineIts h

theorem regularizedSolveAfter_residual_regularized_witness :
    (regularizedSolveAfterNoPromote [[0]] [1] id [1] (1 / 2) 5).2.metRequestedTol = true ∧
    relResWithin
      (vsub [1] (regularizedApply [[0]] [1]
        (regularizedSolveAfterNoPromote [[0]] [1] id [1] (1 / 2) 5).1))
      [1] (1 / 2) :=
  ⟨by norm_num [regularizedSolveAfterNoPromote, refinedSolve, refinedSolveLoop,
      relResWithin, regularizedApply, vsub, vadd, hadamard, matVec, dot, nrmSq],
   regularizedSolveAfter_residual_regularized [[0]] [1] id [1] (1 / 2) 5
     (by norm_num [regularizedSolveAfterNoPromote, refinedSolve, refinedSolveLoop,
       relResWithin, regularizedApply, vsub, vadd, hadamard, matVec, dot, nrmSq])⟩

/-- C7: the sparse-sequential specialization of `Mehrotra`
(`SparseMatrix`/`Matrix` arguments) raises its "not supported"
`LogicError` for every input, before performing any computation (its
body consists of the raise alone, so `x`, `y`, `z` are untouched and no
dense fallback is ever entered). -/
theorem mehrotraSparseSeq_not_supported (A : SparseMat) (b c x y z : Vec)
    (ctrl : MehrotraCtrl) :
    MehrotraSparseSeq A b c x y z ctrl = .notSupported := rfl

/-- C8: the dense sequential and dense distributed variants of
`Mehrotra` implement the same algorithm: modelling each distributed
`MIN` all-reduce as the minimum over the ranks' local step-length folds
(for any element distribution of the aligned vectors), the distributed
variant produces exactly the sequential variant's result — the same
sequence of iterates and the same final `(x, y, z)`. -/
theorem mehrotra_dist_eq_seq {F : Type} (ops : MehrotraOps F)
    (chunkify : Vec → Vec → List (List (ℚ × ℚ)))
    (hch : ∀ v d, ((chunkify v d).flatten).Perm (v.zip d))
    (ctrl : MehrotraCtrl) (A : Mat) (b c x y z : Vec) :
    MehrotraDist ops chunkify ctrl A b c x y z =
      Mehrotra ops ctrl A b c x y z := by
  unfold MehrotraDist Mehrotra
  exact mehrotraLoopDist_eq ops chunkify hch ctrl A b c _ _ _ _ _

theorem mehrotra_dist_eq_seq_witness :
    (((singleChunk [1] [0]).flatten).Perm (([1] : Vec).zip [0])) ∧
    MehrotraDist trivOps singleChunk trivCtrl [[1]] [1] [1] [1] [0] [1] =
      Mehrotra trivOps trivCtrl [[1]] [1] [1] [1] [0] [1] :=
  ⟨singleChunk_perm [1] [0],
   mehrotra_dist_eq_seq trivOps singleChunk singleChunk_perm trivCtrl
     [[1]] [1] [1] [1] [0] [1]⟩

/-- C9: when the numeric type has no extended-precision promotion
(`Field == Promote<Field>`, modelled by `hasPromote = false`), both
`RegularizedSolveAfter` and `RegularizedSolveAfterPromote` return
exactly the result of `RegularizedSolveAfterNoPromote` on the same
arguments, for every choice of the external promoted refinement
routine. -/
theorem regularizedSolveAfter_no_promotion
    (promotedRefinedSolve : (Vec → Vec) → (Vec → Vec) → Vec → ℚ → ℕ → Vec × RefInfo)
    (A : Mat) (reg : Vec) (solve : Vec → Vec) (B : Vec) (relTol : ℚ)
    (maxRefineIts : ℕ) :
    regularizedSolveAfter false promotedRefinedSolve A reg solve B relTol
        maxRefineIts =
      regularizedSolveAfterNoPromote A reg solve B relTol maxRefineIts ∧
    regularizedSolveAfterPromote false promotedRefinedSolve A reg solve B relTol
        maxRefineIts =
      regularizedSolveAfterNoPromote A reg solve B relTol maxRefineIts :=
  ⟨rfl, rfl⟩

/-- C10: when `ctrl.initialized` is false the driver overwrites the
caller's `x`, `y`, `z` with the output of the external
`Initialize(A, b, c)` before the first iteration — the passed-in values
have no effect on the solve — while with `ctrl.initialized` true the
iteration starts from the caller's `x`, `y`, `z`. -/
theorem mehrotra_discards_initial_iterate {F : Type} (ops : MehrotraOps F)
    (ctrl : MehrotraCtrl) (A : Mat) (b c x y z x2 y2 z2 : Vec)
    (h : ctrl.isInit = false) :
    Mehrotra ops ctrl A b c x y z = Mehrotra ops ctrl A b c x2 y2 z2 ∧
    Mehrotra ops ctrl A b c x y z =
      mehrotraLoop ops ctrl A b c (ops.nrm2 b) (ops.nrm2 c) (ctrl.maxIts + 1) 0
        (ops.initIterate A b c) ∧
    (∀ ctrl2 : MehrotraCtrl, ctrl2.isInit = true →
      Mehrotra ops ctrl2 A b c x y z =
        mehrotraLoop ops ctrl2 A b c (ops.nrm2 b) (ops.nrm2 c)
          (ctrl2.maxIts + 1) 0 (x, y, z)) := by
  refine ⟨?_, ?_, ?_⟩
  · simp [Mehrotra, startState, h]
  · simp [Mehrotra, startState, h]
  · intro ctrl2 h2
    simp [Mehrotra, startState, h2]

theorem mehrotra_discards_initial_iterate_witness :
    trivCtrlUninit.isInit = false ∧
    Mehrotra trivOps trivCtrlUninit [[1]] [1] [1] [1] [0] [1] =
      Mehrotra trivOps trivCtrlUninit [[1]] [1] [1] [9] [9] [9] :=
  ⟨rfl,
   (mehrotra_discards_initial_iterate trivOps trivCtrlUninit [[1]] [1] [1]
     [1] [0] [1] [9] [9] [9] rfl).1⟩

end Elem